import Mathlib

/-!
Verification of the rare-variant genotype collapsing core (ModelFitter.cpp)
and the distribution-summary component (Summary.h).

Embedding conventions:
  * C++ `double` values are modelled as `ℚ` wherever the source only performs
    field arithmetic and comparisons; the square roots appearing in the
    Madsen-Browning / fp weights are modelled in `ℝ` via `Real.sqrt`.
  * A genotype `Matrix` is a list of rows (samples) together with an explicit
    column count, mirroring the `rows` / `cols` fields of the C++ Matrix.
  * The C-style cast `(int) x` of a double is truncation toward zero,
    modelled by `truncQ`.
  * Out-of-range accesses (undefined behaviour in C++) are totalised with
    default values; every claim constrains shapes so that defaults are
    never consulted.
-/

/-- Truncation toward zero of a rational, the semantics of the C cast
`(int) x` applied to a double. -/
def truncQ (q : ℚ) : ℤ := if 0 ≤ q then ⌊q⌋ else ⌈q⌉

/-- Sample-by-marker genotype matrix: a list of rows plus the column count
carried by the C++ Matrix object. -/
structure Mat where
  data : List (List ℚ)
  cols : ℕ
deriving DecidableEq

/-- Number of samples, the C++ field `in.rows`. -/
def rows (g : Mat) : ℕ := g.data.length

/-- Matrix entry `in[p][m]` (default 0 when out of range; all claims stay in
range). -/
def entry (g : Mat) (p m : ℕ) : ℚ := (g.data.getD p []).getD m 0

/-- Accumulation loop of `getMarkerFrequency`: allele-count sum `ac` and
allele number `an`, counting a sample only when `(int) in[p][col] >= 0`. -/
def freqAcc (col : ℕ) : List (List ℚ) → ℚ × ℕ
  | [] => (0, 0)
  | r :: rs =>
      let s := freqAcc col rs
      if 0 ≤ truncQ (r.getD col 0) then (r.getD col 0 + s.1, s.2 + 2) else s

/-- ModelFitter.cpp `getMarkerFrequency`: `ac / an`, and `0.0` when `an == 0`. -/
def getMarkerFrequency (g : Mat) (col : ℕ) : ℚ :=
  let s := freqAcc col g.data
  if s.2 = 0 then 0 else s.1 / (s.2 : ℚ)

/-- Accumulation loop of `getMarkerFrequencyFromControl`: samples with
`pheno[p] == 1` are skipped, and the missing test is `in[p][col] >= 0`
on the double itself (no int cast, unlike `getMarkerFrequency`). -/
def controlAcc (col : ℕ) : List (List ℚ) → List ℚ → ℚ × ℕ
  | [], _ => (0, 0)
  | r :: rs, ph =>
      let s := controlAcc col rs (ph.drop 1)
      if ph.getD 0 0 = 1 then s
      else if 0 ≤ r.getD col 0 then (r.getD col 0 + s.1, s.2 + 2) else s

/-- ModelFitter.cpp `getMarkerFrequencyFromControl`: continuity-corrected
`(ac + 1) / (an + 2)` over control samples. -/
def getMarkerFrequencyFromControl (g : Mat) (pheno : List ℚ) (col : ℕ) : ℚ :=
  let s := controlAcc col g.data pheno
  (s.1 + 1) / ((s.2 : ℚ) + 2)

/-- Inner scan of `cmcCollapse` over markers `m < cols` of one sample row:
the early-exit loop sets the output iff some marker has `(int) g > 0`. -/
def cmcRowHit (cols : ℕ) (r : List ℚ) : Bool :=
  (List.range cols).any (fun m => decide (0 < truncQ (r.getD m 0)))

/-- ModelFitter.cpp `cmcCollapse(Matrix&, Matrix*)`: the output is dimensioned
to (numPeople, 1), zeroed, and `out[p][0]` is set to 1.0 at the first marker
with `(int) in[p][m] > 0`. -/
def cmcCollapse (g : Mat) : Mat :=
  { data := g.data.map (fun r => if cmcRowHit g.cols r then [1] else [0])
    cols := 1 }

/-- Inner scan of the indexed `cmcCollapse` over the supplied marker indices. -/
def cmcIndexedHit (index : List ℕ) (r : List ℚ) : Bool :=
  index.any (fun j => decide (0 < truncQ (r.getD j 0)))

/-- Loop of `cmcCollapse(Matrix&, const std::vector<int>&, Matrix*, int)`:
row `p` of `out` gets `out[p][outIndex] = 1.0` iff some listed marker has
`(int) in[p][index[m]] > 0`; no other entry is written.  The C++ code asserts
`out->rows == numPeople`, so rows are consumed in lockstep. -/
def cmcIndexedGo (index : List ℕ) (outIndex : ℕ) :
    List (List ℚ) → List (List ℚ) → List (List ℚ)
  | [], os => os
  | _ :: _, [] => []
  | r :: rs, o :: os =>
      (if cmcIndexedHit index r then o.set outIndex 1 else o)
        :: cmcIndexedGo index outIndex rs os

/-- ModelFitter.cpp indexed `cmcCollapse` variant (no dimensioning, no
zeroing of `out`). -/
def cmcCollapseIndexed (g : Mat) (index : List ℕ) (out : Mat) (outIndex : ℕ) : Mat :=
  { data := cmcIndexedGo index outIndex g.data out.data
    cols := out.cols }

/-- ModelFitter.cpp `zegginiCollapse`: `out[p][0]` accumulates 1.0 per marker
with `(int) in[p][m] > 0`. -/
def zegginiCollapse (g : Mat) : Mat :=
  { data := g.data.map (fun r =>
      [((List.range g.cols).countP (fun m => decide (0 < truncQ (r.getD m 0))) : ℚ)])
    cols := 1 }

/-- Inner loop `for p: out[p][0] += in[p][m] * weight` of the weighted
collapsing methods, over the output column starting at row `p`. -/
def addWeighted (g : Mat) (m : ℕ) (w : ℝ) : ℕ → List ℝ → List ℝ
  | _, [] => []
  | p, x :: xs => (x + (entry g p m : ℝ) * w) :: addWeighted g m w (p + 1) xs

/-- ModelFitter.cpp `fpCollapse`: output zeroed to (numPeople, 1); markers
with degenerate unconditional frequency are skipped; otherwise every
genotype value (missing included) accumulates `in[p][m] * weight` with
`weight = 1 / sqrt(freq * (1 - freq))`. -/
noncomputable def fpCollapse (g : Mat) : List ℝ :=
  (List.range g.cols).foldl
    (fun out m =>
      let freq := getMarkerFrequency g m
      if freq ≤ 0 ∨ 1 ≤ freq then out
      else addWeighted g m (1 / Real.sqrt ((freq : ℝ) * (1 - (freq : ℝ)))) 0 out)
    (List.replicate (rows g) 0)

/-- ModelFitter.cpp `madsonBrowningCollapse(Matrix*, Matrix*)`, the
unconditional variant; its body is identical to `fpCollapse`. -/
noncomputable def madsonBrowningCollapseAll (g : Mat) : List ℝ :=
  (List.range g.cols).foldl
    (fun out m =>
      let freq := getMarkerFrequency g m
      if freq ≤ 0 ∨ 1 ≤ freq then out
      else addWeighted g m (1 / Real.sqrt ((freq : ℝ) * (1 - (freq : ℝ)))) 0 out)
    (List.replicate (rows g) 0)

/-- ModelFitter.cpp `madsonBrowningCollapse(Matrix&, Vector&, Matrix*)`, the
control-frequency variant: `weight = 1 / sqrt(freq * (1 - freq) * numPeople)`
with `freq` estimated from controls. -/
noncomputable def madsonBrowningCollapse (g : Mat) (pheno : List ℚ) : List ℝ :=
  (List.range g.cols).foldl
    (fun out m =>
      let freq := getMarkerFrequencyFromControl g pheno m
      if freq ≤ 0 ∨ 1 ≤ freq then out
      else addWeighted g m
        (1 / Real.sqrt ((freq : ℝ) * (1 - (freq : ℝ)) * (rows g : ℝ))) 0 out)
    (List.replicate (rows g) 0)

/-- Per-marker contribution of marker `m` to sample `p` under `fpCollapse`:
zero for a skipped (degenerate-frequency) marker, `in[p][m] * weight`
otherwise. -/
noncomputable def fpContrib (g : Mat) (p m : ℕ) : ℝ :=
  let freq := getMarkerFrequency g m
  if freq ≤ 0 ∨ 1 ≤ freq then 0
  else (entry g p m : ℝ) * (1 / Real.sqrt ((freq : ℝ) * (1 - (freq : ℝ))))

/-- Per-marker contribution of marker `m` to sample `p` under the
control-frequency `madsonBrowningCollapse`. -/
noncomputable def mbContrib (g : Mat) (pheno : List ℚ) (p m : ℕ) : ℝ :=
  let freq := getMarkerFrequencyFromControl g pheno m
  if freq ≤ 0 ∨ 1 ≤ freq then 0
  else (entry g p m : ℝ) *
    (1 / Real.sqrt ((freq : ℝ) * (1 - (freq : ℝ)) * (rows g : ℝ)))

/-- Ordered-map insertion used by the body of the `groupFrequency` loop:
append index `i` to the bucket of `key` (modelled as an association list). -/
def groupInsert (key : ℚ) (i : ℕ) : List (ℚ × List ℕ) → List (ℚ × List ℕ)
  | [] => [(key, [i])]
  | (k, v) :: rest =>
      if k = key then (k, v ++ [i]) :: rest else (k, v) :: groupInsert key i rest

/-- ModelFitter.cpp `groupFrequency`: the map is cleared, then the loop
`for (size_t i = 0; i < 0; ++i)` runs zero times. -/
def groupFrequency (freq : List ℚ) : List (ℚ × List ℕ) :=
  (List.range 0).foldl (fun acc i => groupInsert (freq.getD i 0) i acc) []

/-- Ascending sort of a copied vector, the effect of `std::sort` in
`Summary::add` (the sorted value list is unique, so any correct sort
models it). -/
def sortAsc (v : List ℚ) : List ℚ := v.insertionSort (· ≤ ·)

/-- Summary.h `Summary` record.  `mean` is kept (modelled from the spec:
`calculateMean` of CommonFunction.h, outside the given sources, is the
arithmetic mean); the `sd` field (`calculateSampleSD`, also outside the
given sources) would require a real square root and no claim concerns it,
so it is not modelled. -/
structure Summary where
  min : ℚ
  q1 : ℚ
  median : ℚ
  q3 : ℚ
  max : ℚ
  mean : ℚ
  n : ℕ
deriving DecidableEq

/-- Summary.h `Summary::add`.  The C++ indices `t[(int) n * 0.25]` etc.
multiply the int `n` by a double and implicitly convert the product back to
a vector index, truncating toward zero; for `n ≥ 0` and exact binary
fractions 0.25 / 0.5 / 0.75 this is natural-number division by 4, 2 and 4/3
respectively. -/
def Summary.add (v : List ℚ) : Summary :=
  let n := v.length
  let t := sortAsc v
  { min := t.getD 0 0
    q1 := t.getD (n / 4) 0
    median := t.getD (n / 2) 0
    q3 := t.getD (3 * n / 4) 0
    max := t.getD (n - 1) 0
    mean := v.sum / (n : ℚ)
    n := n }

/-- Covariate matrix: data rows, column count and the per-column labels
returned by the C++ `Matrix::GetColumnLabel`. -/
structure CovMat where
  data : List (List ℚ)
  cols : ℕ
  labels : List String
deriving DecidableEq

/-- Column `col` of a covariate matrix as the vector `v` built by
`recordCovariateColumn` (`v[i] = m[i][col]`). -/
def colVec (m : CovMat) (col : ℕ) : List ℚ := m.data.map (fun r => r.getD col 0)

/-- Label of column `i`, `m.GetColumnLabel(i)`. -/
def getColumnLabel (m : CovMat) (i : ℕ) : String := m.labels.getD i ""

/-- Summary.h `SummaryHeader` state. -/
structure SummaryHeader where
  phenoLabel : List String
  pheno : List Summary
  transformedPheno : Summary
  inverseNormalized : Bool
  covLabel : List String
  cov : List Summary
deriving DecidableEq

/-- Summary.h `SummaryHeader::recordPhenotype`. -/
def SummaryHeader.recordPhenotype (hd : SummaryHeader) (label : String)
    (ph : List ℚ) : SummaryHeader :=
  { hd with phenoLabel := hd.phenoLabel ++ [label]
            pheno := hd.pheno ++ [Summary.add ph] }

/-- Summary.h `SummaryHeader::setInverseNormalize`. -/
def SummaryHeader.setInverseNormalize (hd : SummaryHeader) (b : Bool) : SummaryHeader :=
  { hd with inverseNormalized := b }

/-- Summary.h `SummaryHeader::recordCovariateColumn`: push the summary of
column `col` onto `cov`. -/
def SummaryHeader.recordCovariateColumn (hd : SummaryHeader) (m : CovMat)
    (col : ℕ) : SummaryHeader :=
  { hd with cov := hd.cov ++ [Summary.add (colVec m col)] }

/-- Loop body of `SummaryHeader::recordCovariate`: for each column index,
push the column label then record the column summary. -/
def recordCovariateGo (m : CovMat) : SummaryHeader → List ℕ → SummaryHeader
  | hd, [] => hd
  | hd, i :: is =>
      recordCovariateGo m
        (SummaryHeader.recordCovariateColumn
          { hd with covLabel := hd.covLabel ++ [getColumnLabel m i] } m i) is

/-- Summary.h `SummaryHeader::recordCovariate`: clears `covLabel` and `cov`,
then records one (label, summary) pair per column. -/
def SummaryHeader.recordCovariate (hd : SummaryHeader) (m : CovMat) : SummaryHeader :=
  recordCovariateGo m { hd with covLabel := [], cov := [] } (List.range m.cols)

/-! ## Helper lemmas -/

theorem truncQ_nonneg_iff (q : ℚ) : 0 ≤ truncQ q ↔ -1 < q := by
  unfold truncQ
  split
  · rename_i h
    rw [Int.floor_nonneg]
    exact ⟨fun _ => by linarith, fun _ => h⟩
  · rw [show (0:ℤ) ≤ ⌈q⌉ ↔ ¬ (⌈q⌉ ≤ -1) by omega, Int.ceil_le]
    push_neg
    norm_num

theorem truncQ_pos_iff (q : ℚ) : 0 < truncQ q ↔ 1 ≤ q := by
  unfold truncQ
  split
  · rw [Int.lt_iff_add_one_le, Int.le_floor]
    norm_num
  · rename_i h
    push_neg at h
    constructor
    · intro hc
      have hq : ⌈q⌉ ≤ 0 := Int.ceil_le.mpr (by norm_num; linarith)
      omega
    · intro hc
      linarith

theorem getD_map_of_lt {α β : Type} (f : α → β) (l : List α) (p : ℕ)
    (d : α) (e : β) (h : p < l.length) : (l.map f).getD p e = f (l.getD p d) := by
  rw [List.getD_eq_getElem?_getD, List.getD_eq_getElem?_getD, List.getElem?_map,
    List.getElem?_eq_getElem h]
  simp

theorem getD_eq_getElem_of_lt {α : Type} (l : List α) (d : α) (p : ℕ)
    (h : p < l.length) : l.getD p d = l[p] := by
  rw [List.getD_eq_getElem?_getD, List.getElem?_eq_getElem h]
  rfl

theorem getD_replicate_of_lt (n p : ℕ) (x d : ℝ) (h : p < n) :
    (List.replicate n x).getD p d = x := by
  rw [List.getD_eq_getElem?_getD, List.getElem?_replicate]
  simp [h]


/-! ## Claim C9 -/

/-- C9: for every input frequency list, groupFrequency clears the output map
and inserts nothing, so the resulting grouping is always the empty map. -/
theorem C9_groupFrequency_empty (freq : List ℚ) : groupFrequency freq = [] := rfl

/-! ## Claim C6 -/

/-- C6: for every genotype matrix, fpCollapse and the unconditional
(matrix-pointer) variant of madsonBrowningCollapse compute identical
outputs: the two functions are extensionally equal. -/
theorem C6_fpCollapse_eq_madsonBrowningCollapseAll (g : Mat) :
    fpCollapse g = madsonBrowningCollapseAll g := rfl

/-! ## Claim C2 -/

/-- C2 fails as stated: in the column of the genotype matrix `[[-1/2]]` every
entry is negative, yet getMarkerFrequency returns -1/4, not 0.0 — the C cast
`(int) in[p][col] >= 0` truncates -1/2 to 0, so the entry is counted as
non-missing. -/
theorem C2_counterexample :
    entry ⟨[[-1/2]], 1⟩ 0 0 < 0 ∧ getMarkerFrequency ⟨[[-1/2]], 1⟩ 0 ≠ 0 := by
  constructor
  · norm_num [entry]
  · have hceil : ⌈(-(1/2) : ℚ)⌉ = 0 := by
      rw [Int.ceil_eq_iff]
      norm_num
    norm_num [getMarkerFrequency, freqAcc, truncQ, hceil]

theorem freqAcc_eq_zero_of_all_missing (col : ℕ) :
    ∀ l : List (List ℚ), (∀ r ∈ l, r.getD col 0 ≤ -1) → freqAcc col l = (0, 0) := by
  intro l h
  induction l with
  | nil => rfl
  | cons r rs ih =>
      have hr : r.getD col 0 ≤ -1 := h r (List.mem_cons_self r rs)
      have hneg : ¬ (0 ≤ truncQ (r.getD col 0)) := by
        rw [truncQ_nonneg_iff]
        intro hc
        linarith
      simp only [freqAcc, hneg, if_false]
      exact ih (fun x hx => h x (List.mem_cons_of_mem r hx))

/-- C2 amended: if every entry in the marker column is at most -1 (i.e.
truncates to a negative integer; negative fractions in (-1,0) are counted as
non-missing by the int cast), getMarkerFrequency returns exactly 0.0. -/
theorem C2_amended_all_missing_freq_zero (g : Mat) (col : ℕ)
    (hcol : col < g.cols) (h : ∀ p, p < rows g → entry g p col ≤ -1) :
    getMarkerFrequency g col = 0 := by
  have hall : ∀ r ∈ g.data, r.getD col 0 ≤ -1 := by
    intro r hr
    obtain ⟨p, hp, hpr⟩ := List.mem_iff_getElem.mp hr
    have hrow : g.data.getD p [] = r := by
      rw [getD_eq_getElem_of_lt g.data [] p hp, hpr]
    have := h p hp
    rw [entry, hrow] at this
    exact this
  rw [getMarkerFrequency, freqAcc_eq_zero_of_all_missing col g.data hall]
  simp

/-- C2 amended witness: on the genotype matrix `[[-1],[-9]]` with both
entries missing, the frequency is 0. -/
theorem C2_amended_witness : getMarkerFrequency ⟨[[-1], [-9]], 1⟩ 0 = 0 :=
  C2_amended_all_missing_freq_zero ⟨[[-1], [-9]], 1⟩ 0 (by norm_num)
    (by
      intro p hp
      match p, hp with
      | 0, _ => norm_num [entry]
      | 1, _ => norm_num [entry])

/-! ## Claim C5 -/

/-- C5 fails as stated: with the finite non-negative genotype matrix `[[3]]`
and phenotype `[0]` (one control), getMarkerFrequencyFromControl returns
`(3+1)/(2+2) = 1`, exactly 1 — the continuity correction only guarantees a
value strictly inside (0,1) when genotypes are bounded by 2. -/
theorem C5_counterexample :
    (0:ℚ) ≤ entry ⟨[[3]], 1⟩ 0 0 ∧
    getMarkerFrequencyFromControl ⟨[[3]], 1⟩ [0] 0 = 1 := by
  constructor
  · norm_num [entry]
  · norm_num [getMarkerFrequencyFromControl, controlAcc]

theorem controlAcc_bounds (col : ℕ) :
    ∀ (l : List (List ℚ)) (ph : List ℚ),
      (∀ r ∈ l, 0 ≤ r.getD col 0 ∧ r.getD col 0 ≤ 2) →
      0 ≤ (controlAcc col l ph).1 ∧
        (controlAcc col l ph).1 ≤ ((controlAcc col l ph).2 : ℚ) := by
  intro l
  induction l with
  | nil => intro ph h; simp [controlAcc]
  | cons r rs ih =>
      intro ph h
      have hr := h r (List.mem_cons_self r rs)
      have hrs := ih (ph.drop 1) (fun x hx => h x (List.mem_cons_of_mem r hx))
      simp only [controlAcc]
      split
      · exact hrs
      · split
        · push_cast
          constructor
          · linarith [hrs.1, hr.1]
          · linarith [hrs.2, hr.2]
        · exact hrs

/-- C5 amended: for every genotype matrix whose entries in the target column
are diploid dosages (between 0 and 2 inclusive), every phenotype vector and
every valid marker column, getMarkerFrequencyFromControl is strictly between
0 and 1.  The bound `entries ≤ 2` is necessary: unbounded non-negative
entries can push the estimator to 1 or beyond. -/
theorem C5_amended_freq_in_open_unit (g : Mat) (pheno : List ℚ) (col : ℕ)
    (hcol : col < g.cols)
    (h : ∀ p, p < rows g → 0 ≤ entry g p col ∧ entry g p col ≤ 2) :
    0 < getMarkerFrequencyFromControl g pheno col ∧
      getMarkerFrequencyFromControl g pheno col < 1 := by
  have hall : ∀ r ∈ g.data, 0 ≤ r.getD col 0 ∧ r.getD col 0 ≤ 2 := by
    intro r hr
    obtain ⟨p, hp, hpr⟩ := List.mem_iff_getElem.mp hr
    have hrow : g.data.getD p [] = r := by
      rw [getD_eq_getElem_of_lt g.data [] p hp, hpr]
    have := h p hp
    rw [entry, hrow] at this
    exact this
  have hb := controlAcc_bounds col g.data pheno hall
  rw [getMarkerFrequencyFromControl]
  have hden : (0:ℚ) < ((controlAcc col g.data pheno).2 : ℚ) + 2 := by
    have : (0:ℚ) ≤ ((controlAcc col g.data pheno).2 : ℚ) := by positivity
    linarith
  constructor
  · apply div_pos _ hden
    linarith [hb.1]
  · rw [div_lt_one hden]
    linarith [hb.2]

/-- C5 amended witness: genotype `[[1],[0]]`, phenotype `[0,1]` (sample 1 is
a case, excluded): the control frequency is strictly inside (0,1). -/
theorem C5_amended_witness :
    0 < getMarkerFrequencyFromControl ⟨[[1], [0]], 1⟩ [0, 1] 0 ∧
      getMarkerFrequencyFromControl ⟨[[1], [0]], 1⟩ [0, 1] 0 < 1 :=
  C5_amended_freq_in_open_unit ⟨[[1], [0]], 1⟩ [0, 1] 0 (by norm_num)
    (by
      intro p hp
      match p, hp with
      | 0, _ => norm_num [entry]
      | 1, _ => norm_num [entry])

/-! ## CMC / Zeggini helper lemmas -/

theorem getD_set_self_of_lt {α : Type} (l : List α) (i : ℕ) (x d : α)
    (h : i < l.length) : (l.set i x).getD i d = x := by
  rw [List.getD_eq_getElem?_getD, List.getElem?_set_self (by omega)]
  rfl

theorem getD_set_ne {α : Type} (l : List α) (i j : ℕ) (x d : α) (h : i ≠ j) :
    (l.set i x).getD j d = l.getD j d := by
  rw [List.getD_eq_getElem?_getD, List.getElem?_set_ne h,
    ← List.getD_eq_getElem?_getD]

theorem cmcRowHit_iff (cols : ℕ) (r : List ℚ) :
    cmcRowHit cols r = true ↔ ∃ m, m < cols ∧ 1 ≤ r.getD m 0 := by
  simp [cmcRowHit, List.any_eq_true, List.mem_range, truncQ_pos_iff]

theorem cmcIndexedHit_iff (index : List ℕ) (r : List ℚ) :
    cmcIndexedHit index r = true ↔ ∃ j ∈ index, 1 ≤ r.getD j 0 := by
  simp [cmcIndexedHit, List.any_eq_true, truncQ_pos_iff]

theorem cmcIndexedHit_nil (index : List ℕ) : cmcIndexedHit index [] = false := by
  simp [cmcIndexedHit, truncQ]

theorem cmcIndexedGo_getD (index : List ℕ) (outIndex : ℕ) :
    ∀ (gs os : List (List ℚ)), gs.length = os.length → ∀ p,
      (cmcIndexedGo index outIndex gs os).getD p [] =
        if cmcIndexedHit index (gs.getD p []) then (os.getD p []).set outIndex 1
        else os.getD p [] := by
  intro gs
  induction gs with
  | nil =>
      intro os hlen p
      have : os = [] := List.eq_nil_of_length_eq_zero hlen.symm
      subst this
      simp [cmcIndexedGo, cmcIndexedHit_nil]
  | cons r rs ih =>
      intro os hlen p
      cases os with
      | nil => simp at hlen
      | cons o os2 =>
          cases p with
          | zero => simp [cmcIndexedGo]
          | succ q =>
              simp only [cmcIndexedGo, List.getD_cons_succ]
              exact ih os2 (by simpa using hlen) q

/-! ## Claim C3 -/

/-- C3 fails as stated: on the genotype matrix `[[1/2]]` the single marker
has genotype 1/2 > 0, yet the CMC output for the sample is 0.0, not 1.0 —
the code tests `(int) genotype > 0`, and the cast truncates 1/2 to 0. -/
theorem C3_counterexample :
    (0:ℚ) < entry ⟨[[1/2]], 1⟩ 0 0 ∧ entry (cmcCollapse ⟨[[1/2]], 1⟩) 0 0 = 0 := by
  have hfl : ⌊(1/2 : ℚ)⌋ = 0 := by
    rw [Int.floor_eq_iff]
    norm_num
  constructor
  · norm_num [entry]
  · norm_num [entry, cmcCollapse, cmcRowHit, truncQ, hfl]

/-- C3 amended: for every genotype matrix, cmcCollapse outputs, per sample,
1.0 iff at least one marker has genotype at least 1 (the code tests the
truncated integer genotype `(int) g > 0`), else 0.0, and the output is
always in {0.0, 1.0}; for the indexed variant the same holds for the
addressed entry provided that entry was 0 beforehand (the indexed variant
does not zero its output). -/
theorem C3_amended_cmc_indicator (g : Mat) (p : ℕ) (hp : p < rows g) :
    (entry (cmcCollapse g) p 0 = 1 ↔ ∃ m, m < g.cols ∧ 1 ≤ entry g p m) ∧
    (entry (cmcCollapse g) p 0 = 0 ∨ entry (cmcCollapse g) p 0 = 1) ∧
    (∀ (index : List ℕ) (out : Mat) (outIndex : ℕ),
      out.data.length = rows g →
      (∀ r ∈ out.data, outIndex < r.length) →
      entry out p outIndex = 0 →
      ((entry (cmcCollapseIndexed g index out outIndex) p outIndex = 1 ↔
          ∃ j ∈ index, 1 ≤ entry g p j) ∧
        (entry (cmcCollapseIndexed g index out outIndex) p outIndex = 0 ∨
          entry (cmcCollapseIndexed g index out outIndex) p outIndex = 1))) := by
  have hrow : entry (cmcCollapse g) p 0 =
      if cmcRowHit g.cols (g.data.getD p []) then 1 else 0 := by
    rw [entry, cmcCollapse]
    rw [getD_map_of_lt _ g.data p [] [] hp]
    split <;> simp
  refine ⟨?_, ?_, ?_⟩
  · rw [hrow]
    split
    · rename_i hhit
      simp only [eq_self_iff_true, true_iff]
      obtain ⟨m, hm, h1⟩ := (cmcRowHit_iff g.cols _).mp hhit
      exact ⟨m, hm, h1⟩
    · rename_i hhit
      constructor
      · intro h01
        norm_num at h01
      · intro ⟨m, hm, h1⟩
        exact absurd ((cmcRowHit_iff g.cols _).mpr ⟨m, hm, h1⟩) (by simpa using hhit)
  · rw [hrow]
    split
    · right; rfl
    · left; rfl
  · intro index out outIndex hlen hwide hzero
    have hgetd := cmcIndexedGo_getD index outIndex g.data out.data
      (by rw [hlen]; rfl) p
    have hentry : entry (cmcCollapseIndexed g index out outIndex) p outIndex =
        if cmcIndexedHit index (g.data.getD p []) then 1 else entry out p outIndex := by
      rw [entry, cmcCollapseIndexed]
      simp only []
      rw [hgetd]
      split
      · have hpo : p < out.data.length := by rw [hlen]; exact hp
        have hmem : out.data.getD p [] ∈ out.data := by
          rw [getD_eq_getElem_of_lt out.data [] p hpo]
          exact List.getElem_mem hpo
        exact getD_set_self_of_lt _ outIndex 1 0 (hwide _ hmem)
      · rfl
    rw [hentry, hzero]
    split
    · rename_i hhit
      constructor
      · simp only [eq_self_iff_true, true_iff]
        exact (cmcIndexedHit_iff index _).mp hhit
      · right; rfl
    · rename_i hhit
      constructor
      · constructor
        · intro h01
          norm_num at h01
        · intro hex
          exact absurd ((cmcIndexedHit_iff index _).mpr hex) (by simpa using hhit)
      · left; rfl

/-- C3 amended witness: the genotype matrix `[[0, 2]]` has a marker with
dosage 2 for its single sample, and CMC reports 1. -/
theorem C3_amended_witness :
    (entry (cmcCollapse ⟨[[0, 2]], 2⟩) 0 0 = 1 ↔
      ∃ m, m < (⟨[[0, 2]], 2⟩ : Mat).cols ∧ 1 ≤ entry ⟨[[0, 2]], 2⟩ 0 m) ∧
    (entry (cmcCollapse ⟨[[0, 2]], 2⟩) 0 0 = 0 ∨
      entry (cmcCollapse ⟨[[0, 2]], 2⟩) 0 0 = 1) ∧
    (∀ (index : List ℕ) (out : Mat) (outIndex : ℕ),
      out.data.length = rows ⟨[[0, 2]], 2⟩ →
      (∀ r ∈ out.data, outIndex < r.length) →
      entry out 0 outIndex = 0 →
      ((entry (cmcCollapseIndexed ⟨[[0, 2]], 2⟩ index out outIndex) 0 outIndex = 1 ↔
          ∃ j ∈ index, 1 ≤ entry ⟨[[0, 2]], 2⟩ 0 j) ∧
        (entry (cmcCollapseIndexed ⟨[[0, 2]], 2⟩ index out outIndex) 0 outIndex = 0 ∨
          entry (cmcCollapseIndexed ⟨[[0, 2]], 2⟩ index out outIndex) 0 outIndex = 1))) :=
  C3_amended_cmc_indicator ⟨[[0, 2]], 2⟩ 0 (by norm_num [rows])

/-! ## Claim C4 -/

/-- C4 fails as stated: on the genotype matrix `[[1/2]]` one marker has
genotype 1/2 > 0, yet zegginiCollapse outputs 0 for the sample, because the
code counts markers with `(int) genotype > 0` and the cast truncates 1/2
to 0. -/
theorem C4_counterexample :
    (0:ℚ) < entry ⟨[[1/2]], 1⟩ 0 0 ∧ entry (zegginiCollapse ⟨[[1/2]], 1⟩) 0 0 = 0 := by
  have hfl : ⌊(1/2 : ℚ)⌋ = 0 := by
    rw [Int.floor_eq_iff]
    norm_num
  constructor
  · norm_num [entry]
  · norm_num [entry, zegginiCollapse, truncQ, hfl]

/-- C4 amended: for every genotype matrix, zegginiCollapse outputs, per
sample, the count of markers whose genotype is at least 1 (markers with
`(int) genotype > 0`; fractional dosages below 1 are not counted), a
non-negative integer-valued double. -/
theorem countP_congruence {α : Type} (p q : α → Bool) :
    ∀ l : List α, (∀ a ∈ l, p a = q a) → l.countP p = l.countP q := by
  intro l h
  induction l with
  | nil => rfl
  | cons a as ih =>
      rw [List.countP_cons, List.countP_cons, h a (List.mem_cons_self a as),
        ih (fun x hx => h x (List.mem_cons_of_mem a hx))]

theorem C4_amended_zeggini_count (g : Mat) (p : ℕ) (hp : p < rows g) :
    entry (zegginiCollapse g) p 0 =
      (((List.range g.cols).countP (fun m => decide (1 ≤ entry g p m))) : ℚ) := by
  rw [entry, zegginiCollapse]
  rw [getD_map_of_lt _ g.data p [] [] hp]
  rw [List.getD_cons_zero]
  congr 1
  apply countP_congruence
  intro m hm
  simp only [decide_eq_decide]
  exact truncQ_pos_iff _

/-- C4 amended witness: genotype matrix `[[1, 0, 2]]`: the sample carries two
markers with dosage at least 1 and the Zeggini output is that count. -/
theorem C4_amended_witness :
    entry (zegginiCollapse ⟨[[1, 0, 2]], 3⟩) 0 0 =
      (((List.range (⟨[[1, 0, 2]], 3⟩ : Mat).cols).countP
        (fun m => decide (1 ≤ entry ⟨[[1, 0, 2]], 3⟩ 0 m))) : ℚ) :=
  C4_amended_zeggini_count ⟨[[1, 0, 2]], 3⟩ 0 (by norm_num [rows])

/-! ## Claim C8 -/

/-- C8: the indexed cmcCollapse call, when the output matrix has the same
row count as the input and more than outIndex columns, leaves every entry
outside column outIndex unchanged; an entry in column outIndex is modified
only by being set to 1.0; and a sample with no qualifying marker among the
given indices retains its prior value in column outIndex. -/
theorem C8_indexed_cmc_frame (g : Mat) (index : List ℕ) (out : Mat) (outIndex : ℕ)
    (hrows : out.data.length = rows g)
    (hcols : ∀ r ∈ out.data, outIndex < r.length) :
    (∀ p c, c ≠ outIndex →
      entry (cmcCollapseIndexed g index out outIndex) p c = entry out p c) ∧
    (∀ p, entry (cmcCollapseIndexed g index out outIndex) p outIndex =
        entry out p outIndex ∨
      entry (cmcCollapseIndexed g index out outIndex) p outIndex = 1) ∧
    (∀ p, (∀ j ∈ index, entry g p j < 1) →
      entry (cmcCollapseIndexed g index out outIndex) p outIndex =
        entry out p outIndex) := by
  have hlen : g.data.length = out.data.length := by rw [hrows]; rfl
  refine ⟨?_, ?_, ?_⟩
  · intro p c hc
    rw [entry, cmcCollapseIndexed]
    simp only []
    rw [cmcIndexedGo_getD index outIndex g.data out.data hlen p]
    split
    · rw [getD_set_ne _ outIndex c 1 0 (fun he => hc he.symm)]
      rfl
    · rfl
  · intro p
    rw [entry, cmcCollapseIndexed]
    simp only []
    rw [cmcIndexedGo_getD index outIndex g.data out.data hlen p]
    split
    · by_cases hpo : p < out.data.length
      · right
        have hmem : out.data.getD p [] ∈ out.data := by
          rw [getD_eq_getElem_of_lt out.data [] p hpo]
          exact List.getElem_mem hpo
        exact getD_set_self_of_lt _ outIndex 1 0 (hcols _ hmem)
      · left
        have hnil : out.data.getD p [] = [] := by
          rw [List.getD_eq_getElem?_getD, List.getElem?_eq_none (by omega)]
          rfl
        rw [hnil, entry, hnil]
        rfl
    · left; rfl
  · intro p hnone
    rw [entry, cmcCollapseIndexed]
    simp only []
    rw [cmcIndexedGo_getD index outIndex g.data out.data hlen p]
    rw [if_neg]
    · rfl
    · intro hhit
      obtain ⟨j, hj, h1⟩ := (cmcIndexedHit_iff index _).mp hhit
      exact absurd h1 (not_le.mpr (hnone j hj))

/-- C8 witness: with genotype `[[2],[0]]`, indices `[0]`, prior output
`[[5,7],[6,8]]` and output column 1: column 0 of row 0 is untouched, and
row 1 (no qualifying marker) keeps its prior value in column 1. -/
theorem C8_indexed_cmc_frame_witness :
    entry (cmcCollapseIndexed ⟨[[2], [0]], 1⟩ [0] ⟨[[5, 7], [6, 8]], 2⟩ 1) 0 0 =
      entry ⟨[[5, 7], [6, 8]], 2⟩ 0 0 ∧
    entry (cmcCollapseIndexed ⟨[[2], [0]], 1⟩ [0] ⟨[[5, 7], [6, 8]], 2⟩ 1) 1 1 =
      entry ⟨[[5, 7], [6, 8]], 2⟩ 1 1 := by
  have h := C8_indexed_cmc_frame ⟨[[2], [0]], 1⟩ [0] ⟨[[5, 7], [6, 8]], 2⟩ 1
    (by norm_num [rows])
    (by
      intro r hr
      fin_cases hr <;> norm_num)
  refine ⟨h.1 0 0 (by norm_num), h.2.2 1 ?_⟩
  intro j hj
  fin_cases hj
  norm_num [entry]

/-! ## Claim C7 -/

theorem floorIdx_quarter (n : ℕ) : (⌊(n : ℚ) * 0.25⌋).toNat = n / 4 := by
  rw [show ((n:ℚ) * 0.25) = ((n:ℕ):ℚ) / ((4:ℕ):ℚ) by push_cast; ring]
  rw [Rat.floor_natCast_div_natCast]
  rw [show ((n:ℤ)) / ((4:ℕ):ℤ) = ((n / 4 : ℕ) : ℤ) by push_cast; omega]
  exact Int.toNat_natCast _

theorem floorIdx_half (n : ℕ) : (⌊(n : ℚ) * 0.5⌋).toNat = n / 2 := by
  rw [show ((n:ℚ) * 0.5) = ((n:ℕ):ℚ) / ((2:ℕ):ℚ) by push_cast; ring]
  rw [Rat.floor_natCast_div_natCast]
  rw [show ((n:ℤ)) / ((2:ℕ):ℤ) = ((n / 2 : ℕ) : ℤ) by push_cast; omega]
  exact Int.toNat_natCast _

theorem floorIdx_threeQuarter (n : ℕ) : (⌊(n : ℚ) * 0.75⌋).toNat = 3 * n / 4 := by
  rw [show ((n:ℚ) * 0.75) = ((3 * n : ℕ):ℚ) / ((4:ℕ):ℚ) by push_cast; ring]
  rw [Rat.floor_natCast_div_natCast]
  rw [show ((3 * n : ℕ):ℤ) / ((4:ℕ):ℤ) = ((3 * n / 4 : ℕ) : ℤ) by push_cast; omega]
  exact Int.toNat_natCast _

/-- C7: for every non-empty observation vector v, Summary.add(v) sets n to
the size of v, min to sorted[0], max to sorted[n-1], and the quartiles to
the nearest-rank entries sorted[floor(n*0.25)], sorted[floor(n*0.5)],
sorted[floor(n*0.75)] (truncating indices, no interpolation); in particular
on [1,2,3,4,5] this yields n=5, min=1, q1=2, median=3, q3=4, max=5. -/
theorem C7_summary_add_fields :
    (∀ v : List ℚ, v ≠ [] →
      (Summary.add v).n = v.length ∧
      (Summary.add v).min = (sortAsc v).getD 0 0 ∧
      (Summary.add v).q1 = (sortAsc v).getD (⌊(v.length : ℚ) * 0.25⌋).toNat 0 ∧
      (Summary.add v).median = (sortAsc v).getD (⌊(v.length : ℚ) * 0.5⌋).toNat 0 ∧
      (Summary.add v).q3 = (sortAsc v).getD (⌊(v.length : ℚ) * 0.75⌋).toNat 0 ∧
      (Summary.add v).max = (sortAsc v).getD (v.length - 1) 0) ∧
    ((Summary.add [1, 2, 3, 4, 5]).n = 5 ∧
      (Summary.add [1, 2, 3, 4, 5]).min = 1 ∧
      (Summary.add [1, 2, 3, 4, 5]).q1 = 2 ∧
      (Summary.add [1, 2, 3, 4, 5]).median = 3 ∧
      (Summary.add [1, 2, 3, 4, 5]).q3 = 4 ∧
      (Summary.add [1, 2, 3, 4, 5]).max = 5) := by
  constructor
  · intro v hv
    refine ⟨rfl, rfl, ?_, ?_, ?_, rfl⟩
    · rw [floorIdx_quarter]; rfl
    · rw [floorIdx_half]; rfl
    · rw [floorIdx_threeQuarter]; rfl
  · norm_num [Summary.add, sortAsc, List.insertionSort, List.orderedInsert]

/-- C7 witness: the universal part applied to the concrete non-empty
vector [2, 1]. -/
theorem C7_summary_add_fields_witness :
    (Summary.add [(2:ℚ), 1]).n = [(2:ℚ), 1].length ∧
    (Summary.add [(2:ℚ), 1]).min = (sortAsc [(2:ℚ), 1]).getD 0 0 ∧
    (Summary.add [(2:ℚ), 1]).q1 =
      (sortAsc [(2:ℚ), 1]).getD (⌊([(2:ℚ), 1].length : ℚ) * 0.25⌋).toNat 0 ∧
    (Summary.add [(2:ℚ), 1]).median =
      (sortAsc [(2:ℚ), 1]).getD (⌊([(2:ℚ), 1].length : ℚ) * 0.5⌋).toNat 0 ∧
    (Summary.add [(2:ℚ), 1]).q3 =
      (sortAsc [(2:ℚ), 1]).getD (⌊([(2:ℚ), 1].length : ℚ) * 0.75⌋).toNat 0 ∧
    (Summary.add [(2:ℚ), 1]).max = (sortAsc [(2:ℚ), 1]).getD ([(2:ℚ), 1].length - 1) 0 :=
  C7_summary_add_fields.1 [2, 1] (by simp)

/-! ## Claim C10 -/

theorem recordCovariateGo_fields (m : CovMat) :
    ∀ (is : List ℕ) (hd : SummaryHeader),
      (recordCovariateGo m hd is).phenoLabel = hd.phenoLabel ∧
      (recordCovariateGo m hd is).pheno = hd.pheno ∧
      (recordCovariateGo m hd is).transformedPheno = hd.transformedPheno ∧
      (recordCovariateGo m hd is).inverseNormalized = hd.inverseNormalized ∧
      (recordCovariateGo m hd is).covLabel = hd.covLabel ++ is.map (getColumnLabel m) ∧
      (recordCovariateGo m hd is).cov =
        hd.cov ++ is.map (fun i => Summary.add (colVec m i)) := by
  intro is
  induction is with
  | nil => intro hd; simp [recordCovariateGo]
  | cons i is ih =>
      intro hd
      obtain ⟨h1, h2, h3, h4, h5, h6⟩ := ih
        (SummaryHeader.recordCovariateColumn
          { hd with covLabel := hd.covLabel ++ [getColumnLabel m i] } m i)
      refine ⟨h1.trans ?_, h2.trans ?_, h3.trans ?_, h4.trans ?_,
        h5.trans ?_, h6.trans ?_⟩ <;>
        simp [SummaryHeader.recordCovariateColumn]

/-- C10: every call to SummaryHeader.recordCovariate first discards all
previously recorded covariate labels and covariate summaries, then records
exactly one (label, Summary) pair per column of its argument — replacement,
not accumulation — while leaving the recorded phenotype labels, phenotype
summaries and the inverse-normal flag unchanged. -/
theorem C10_recordCovariate_replaces (hd : SummaryHeader) (m : CovMat) :
    (hd.recordCovariate m).phenoLabel = hd.phenoLabel ∧
    (hd.recordCovariate m).pheno = hd.pheno ∧
    (hd.recordCovariate m).inverseNormalized = hd.inverseNormalized ∧
    (hd.recordCovariate m).covLabel = (List.range m.cols).map (getColumnLabel m) ∧
    (hd.recordCovariate m).cov =
      (List.range m.cols).map (fun i => Summary.add (colVec m i)) := by
  obtain ⟨h1, h2, h3, h4, h5, h6⟩ := recordCovariateGo_fields m (List.range m.cols)
    { hd with covLabel := [], cov := [] }
  rw [SummaryHeader.recordCovariate]
  exact ⟨h1.trans (by simp), h2.trans (by simp), h4.trans (by simp),
    h5.trans (by simp), h6.trans (by simp)⟩

/-! ## Claim C1 -/

theorem addWeighted_length (g : Mat) (m : ℕ) (w : ℝ) :
    ∀ (xs : List ℝ) (p0 : ℕ), (addWeighted g m w p0 xs).length = xs.length := by
  intro xs
  induction xs with
  | nil => intro p0; rfl
  | cons x xs ih => intro p0; simp [addWeighted, ih]

theorem addWeighted_getD (g : Mat) (m : ℕ) (w : ℝ) :
    ∀ (xs : List ℝ) (p0 p : ℕ), p < xs.length →
      (addWeighted g m w p0 xs).getD p 0 =
        xs.getD p 0 + (entry g (p0 + p) m : ℝ) * w := by
  intro xs
  induction xs with
  | nil => intro p0 p hp; simp at hp
  | cons x xs ih =>
      intro p0 p hp
      cases p with
      | zero => simp [addWeighted]
      | succ q =>
          simp only [addWeighted, List.getD_cons_succ]
          rw [ih (p0 + 1) q (by simpa using hp),
            show p0 + 1 + q = p0 + (q + 1) by omega]

theorem foldl_weighted_getD (f : List ℝ → ℕ → List ℝ) (c : ℕ → ℕ → ℝ)
    (hlen : ∀ out m, (f out m).length = out.length)
    (hget : ∀ out m p, p < out.length → (f out m).getD p 0 = out.getD p 0 + c p m) :
    ∀ (L : List ℕ) (out : List ℝ) (p : ℕ), p < out.length →
      (L.foldl f out).getD p 0 = out.getD p 0 + (L.map (c p)).sum := by
  intro L
  induction L with
  | nil => intro out p hp; simp
  | cons m L ih =>
      intro out p hp
      simp only [List.foldl_cons, List.map_cons, List.sum_cons]
      rw [ih (f out m) p (by rw [hlen]; exact hp), hget out m p hp]
      ring

theorem fp_getD_decomposition (g : Mat) (p : ℕ) (hp : p < rows g) :
    (fpCollapse g).getD p 0 = ((List.range g.cols).map (fpContrib g p)).sum := by
  rw [fpCollapse]
  rw [foldl_weighted_getD _ (fpContrib g) ?hlen ?hget (List.range g.cols)
    (List.replicate (rows g) 0) p (by simpa using hp)]
  · rw [getD_replicate_of_lt (rows g) p 0 0 hp]
    ring
  case hlen =>
    intro out m
    by_cases hc : getMarkerFrequency g m ≤ 0 ∨ 1 ≤ getMarkerFrequency g m
    · simp [hc]
    · simp [hc, addWeighted_length]
  case hget =>
    intro out m p2 hp2
    by_cases hc : getMarkerFrequency g m ≤ 0 ∨ 1 ≤ getMarkerFrequency g m
    · simp [hc, fpContrib]
    · simp only [hc, if_false, fpContrib]
      rw [addWeighted_getD g m _ out 0 p2 hp2]
      simp [hc]

theorem mb_getD_decomposition (g : Mat) (pheno : List ℚ) (p : ℕ) (hp : p < rows g) :
    (madsonBrowningCollapse g pheno).getD p 0 =
      ((List.range g.cols).map (mbContrib g pheno p)).sum := by
  rw [madsonBrowningCollapse]
  rw [foldl_weighted_getD _ (mbContrib g pheno) ?hlen ?hget (List.range g.cols)
    (List.replicate (rows g) 0) p (by simpa using hp)]
  · rw [getD_replicate_of_lt (rows g) p 0 0 hp]
    ring
  case hlen =>
    intro out m
    by_cases hc : getMarkerFrequencyFromControl g pheno m ≤ 0 ∨
      1 ≤ getMarkerFrequencyFromControl g pheno m
    · simp [hc]
    · simp [hc, addWeighted_length]
  case hget =>
    intro out m p2 hp2
    by_cases hc : getMarkerFrequencyFromControl g pheno m ≤ 0 ∨
      1 ≤ getMarkerFrequencyFromControl g pheno m
    · simp [hc, mbContrib]
    · simp only [hc, if_false, mbContrib]
      rw [addWeighted_getD g m _ out 0 p2 hp2]
      simp [hc]

/-- C1 fails as stated: on genotype matrix `[[-1],[1]]` (sample 0 missing,
sample 1 carrying one allele), the unconditional frequency is 1/2, the
marker is not skipped, and every weighted collapse accumulates
`genotype * weight` for sample 0 even though its genotype is missing, giving
a nonzero (negative) aggregate score instead of the zero contribution the
claim asserts.  For the control-frequency variant the phenotype `[0,0]`
(two controls) exhibits the same failure. -/
theorem C1_counterexample :
    entry ⟨[[-1], [1]], 1⟩ 0 0 < 0 ∧
    (fpCollapse ⟨[[-1], [1]], 1⟩).getD 0 0 = -2 ∧
    (madsonBrowningCollapseAll ⟨[[-1], [1]], 1⟩).getD 0 0 = -2 ∧
    (madsonBrowningCollapse ⟨[[-1], [1]], 1⟩ [0, 0]).getD 0 0 ≠ 0 := by
  have hm : ¬ (0 ≤ truncQ (-1 : ℚ)) := by
    rw [truncQ_nonneg_iff]
    norm_num
  have hp1 : 0 ≤ truncQ (1 : ℚ) := (truncQ_nonneg_iff 1).mpr (by norm_num)
  have hfreq : getMarkerFrequency ⟨[[-1], [1]], 1⟩ 0 = 1/2 := by
    norm_num [getMarkerFrequency, freqAcc, hm, hp1]
  have hfreqc : getMarkerFrequencyFromControl ⟨[[-1], [1]], 1⟩ [0, 0] 0 = 1/2 := by
    norm_num [getMarkerFrequencyFromControl, controlAcc]
  have hr1 : List.range 1 = [0] := rfl
  have hcols : (⟨[[-1], [1]], 1⟩ : Mat).cols = 1 := rfl
  have hrows2 : rows (⟨[[-1], [1]], 1⟩ : Mat) = 2 := rfl
  have hrep : List.replicate 2 (0:ℝ) = [0, 0] := rfl
  have hsqrt : (1:ℝ) / Real.sqrt (((1/2 : ℚ) : ℝ) * (1 - ((1/2 : ℚ) : ℝ))) = 2 := by
    rw [show (((1/2 : ℚ) : ℝ) * (1 - ((1/2 : ℚ) : ℝ))) = (1/2 : ℝ)^2 by
        push_cast
        norm_num,
      Real.sqrt_sq (by norm_num : (0:ℝ) ≤ 1/2)]
    norm_num
  have hfp : (fpCollapse ⟨[[-1], [1]], 1⟩).getD 0 0 = -2 := by
    rw [fpCollapse, hcols, hrows2, hr1, hrep]
    simp only [List.foldl_cons, List.foldl_nil]
    rw [hfreq, if_neg (by norm_num)]
    simp only [addWeighted, List.getD_cons_zero]
    rw [hsqrt]
    norm_num [entry]
  refine ⟨by norm_num [entry], hfp, hfp, ?_⟩
  rw [madsonBrowningCollapse, hcols, hrows2, hr1, hrep]
  simp only [List.foldl_cons, List.foldl_nil]
  rw [hfreqc, if_neg (by norm_num)]
  simp only [addWeighted, List.getD_cons_zero]
  have harg : ((1/2 : ℚ) : ℝ) * (1 - ((1/2 : ℚ) : ℝ)) * ((2:ℕ) : ℝ) = 1/2 := by
    push_cast
    norm_num
  rw [harg]
  have hw2 : (1:ℝ) / Real.sqrt (1/2) ≠ 0 :=
    div_ne_zero one_ne_zero (ne_of_gt (Real.sqrt_pos.mpr (by norm_num)))
  have hval : (0:ℝ) + ((entry ⟨[[-1], [1]], 1⟩ 0 0 : ℚ) : ℝ) * (1 / Real.sqrt (1/2)) =
      -(1 / Real.sqrt (1/2)) := by
    norm_num [entry]
  rw [hval]
  exact neg_ne_zero.mpr hw2

/-- C1 amended: in the weighted collapsing operations, missing genotypes
are excluded only from the allele-frequency estimates; in the weighted sum
every genotype value — a negative missing code included — contributes
`genotype * weight` to the sample's aggregate score, and a marker
contributes zero to every sample exactly when its frequency is degenerate
(at most 0 or at least 1): each sample's aggregate is the sum over markers
of these per-marker contributions. -/
theorem C1_amended_weighted_contribution (g : Mat) (pheno : List ℚ) (p : ℕ)
    (hp : p < rows g) :
    (fpCollapse g).getD p 0 = ((List.range g.cols).map (fpContrib g p)).sum ∧
    (madsonBrowningCollapseAll g).getD p 0 =
      ((List.range g.cols).map (fpContrib g p)).sum ∧
    (madsonBrowningCollapse g pheno).getD p 0 =
      ((List.range g.cols).map (mbContrib g pheno p)).sum := by
  refine ⟨fp_getD_decomposition g p hp, ?_, mb_getD_decomposition g pheno p hp⟩
  have hall : madsonBrowningCollapseAll g = fpCollapse g := rfl
  rw [hall]
  exact fp_getD_decomposition g p hp

/-- C1 amended witness: the decomposition applied to the genotype matrix
`[[-1],[1]]`, phenotype `[0,0]`, sample 0. -/
theorem C1_amended_witness :
    (fpCollapse ⟨[[-1], [1]], 1⟩).getD 0 0 =
      ((List.range (⟨[[-1], [1]], 1⟩ : Mat).cols).map
        (fpContrib ⟨[[-1], [1]], 1⟩ 0)).sum ∧
    (madsonBrowningCollapseAll ⟨[[-1], [1]], 1⟩).getD 0 0 =
      ((List.range (⟨[[-1], [1]], 1⟩ : Mat).cols).map
        (fpContrib ⟨[[-1], [1]], 1⟩ 0)).sum ∧
    (madsonBrowningCollapse ⟨[[-1], [1]], 1⟩ [0, 0]).getD 0 0 =
      ((List.range (⟨[[-1], [1]], 1⟩ : Mat).cols).map
        (mbContrib ⟨[[-1], [1]], 1⟩ [0, 0] 0)).sum :=
  C1_amended_weighted_contribution ⟨[[-1], [1]], 1⟩ [0, 0] 0 (by norm_num [rows])
